import Mathlib

/-!
Verification of `og_marl/vault_utils/analyse_vault.py`.

The module has two core computations:

* `calculate_returns` — its inner worker `sum_rewards` runs a `jax.lax.scan`
  over (shifted terminals, rewards) and selects the cumulative values at the
  positions where the original terminal flag equals 1.
* `get_saco` — concatenates states with reshaped (flattened) actions along the
  last axis, applies `np.unique(..., axis=1)` and divides the `len` of the
  result by `states.shape[1]`.

plus an orchestration function `analyse_vault` iterating over dataset UIDs.

Shallow embedding conventions: numpy/jax arrays become nested lists over ℚ
(exact arithmetic standing in for the floats, so "bit-for-bit equality" is
plain equality); shape errors raised by `jax.lax.scan` / `np.concatenate` on
mismatched leading axes become an explicit `Except` error value
(`AnalyseError.invalidInput`, the spec's `InvalidInput`).
-/

/-- The single error kind the spec assigns to the core: `InvalidInput`,
raised (in the source, by `jax.lax.scan` / `np.concatenate`) when
index-aligned inputs have mismatched lengths. -/
inductive AnalyseError where
  | invalidInput
deriving DecidableEq, Repr

/-- Embedding of `scan_fn` inside `sum_rewards`: `new_carry = carry + reward`,
then `jax.lax.cond(terminal.all(), reset to reward, keep new_carry)`.
On a scalar float, `.all()` is true exactly when the value is nonzero. -/
def scan_fn (carry : ℚ) (inputs : ℚ × ℚ) : ℚ :=
  let new_carry := carry + inputs.2
  if inputs.1 ≠ 0 then inputs.2 else new_carry

/-- The output sequence of `jax.lax.scan scan_fn` (the `ys` component):
each step emits the updated carry. -/
def scanAccum (carry : ℚ) : List (ℚ × ℚ) → List ℚ
  | [] => []
  | p :: ps => scan_fn carry p :: scanAccum (scan_fn carry p) ps

/-- Boolean-mask selection `cumulative_rewards[terminals == 1]`:
keep the values at the indices where the mask entry equals 1. -/
def maskSelect (mask vals : List ℚ) : List ℚ :=
  ((mask.zip vals).filter (fun p => decide (p.1 = 1))).map Prod.snd

/-- Embedding of `sum_rewards` (the worker inside `calculate_returns`).
`jnp.pad(terminals, ((1, 0)))[:-1]` is the right-shift with a leading 0:
`(0 :: terminals).dropLast`.  `jax.lax.scan` raises when the two scanned
arrays have different leading axis sizes, which we surface as the spec's
`InvalidInput`; the initial carry is `jnp.zeros_like(terminals[0]) = 0`. -/
def sum_rewards (terminals rewards : List ℚ) : Except AnalyseError (List ℚ) :=
  if terminals.length = rewards.length then
    let shifted := (0 :: terminals).dropLast
    let cumulative := scanAccum 0 (shifted.zip rewards)
    .ok (maskSelect terminals cumulative)
  else .error .invalidInput

/-- `offline_data["actions"].reshape((*shape[:2], -1))`: keep the leading
(batch, time) axes and flatten everything after them into one vector. -/
def reshape_actions (actions : List (List (List (List ℚ)))) : List (List (List ℚ)) :=
  actions.map (fun perTime => perTime.map List.flatten)

/-- Shape condition `np.concatenate((xs, ys), axis=-1)` demands of two
(batch, time, feature) arrays: equal batch axes and, per batch element,
equal time axes (the feature axes may differ, they are concatenated). -/
def aligned (xs ys : List (List (List ℚ))) : Bool :=
  xs.length == ys.length && (xs.zip ys).all (fun p => p.1.length == p.2.length)

/-- `np.concatenate((xs, ys), axis=-1)` on two (batch, time, feature) arrays;
`none` models the `ValueError` numpy raises on mismatched non-concatenated
axes. -/
def concat_last_axis (xs ys : List (List (List ℚ))) :
    Option (List (List (List ℚ))) :=
  if aligned xs ys then
    some ((xs.zip ys).map (fun p => (p.1.zip p.2).map (fun q => q.1 ++ q.2)))
  else none

/-- Transposition of the first two axes of a rectangular rank-3 array (the
`np.moveaxis` step inside `np.unique(..., axis=1)`), indexed by the length
`d` of the axis being moved to the front: entry `i j` of the result is entry
`j i` of the argument. -/
def moveAxis01 (d : ℕ) (arr : List (List (List ℚ))) : List (List (List ℚ)) :=
  (List.range d).map (fun i => arr.map (fun row => row.getD i []))

/-- `np.unique(arr, axis=1)` on a (batch, time, feature) array: move axis 1 to
the front, keep one copy of each distinct slice (numpy also sorts the slices;
only the multiplicity removal matters for the result's shape, which is all
`get_saco` consumes), and move the axis back.  The leading axis of the result
keeps its original length `arr.length`. -/
def np_unique_axis1 (arr : List (List (List ℚ))) : List (List (List ℚ)) :=
  moveAxis01 arr.length ((moveAxis01 (arr.headD []).length arr).dedup)

/-- Embedding of `get_saco` (the part downstream of the vault read): `states`
is the (batch, time, state-feature) array `offline_data['infos']["state"]`,
`actions` the raw (batch, time, agent/action...) array.
`num_tot = states.shape[1]`; the score is
`len(np.unique(state_pairs, axis=1)) / num_tot`. -/
def get_saco (states : List (List (List ℚ)))
    (actions : List (List (List (List ℚ)))) : Except AnalyseError ℚ :=
  let num_tot := (states.headD []).length
  match concat_last_axis states (reshape_actions actions) with
  | none => .error .invalidInput
  | some state_pairs =>
      let unique_vals := np_unique_axis1 state_pairs
      .ok ((unique_vals.length : ℚ) / (num_tot : ℚ))

/-! Spec-side definitions.  These follow the wording of the specification
(§4.1 `compute_returns` and §4.2 `compute_saco`) rather than the source; the
refinement theorems compare them with the embeddings above. -/

/-- Spec terminals are booleans; the source stores them as 0/1 floats. -/
def boolToQ (b : Bool) : ℚ := if b then 1 else 0

/-- Spec §4.1 step 1: shift `terminals` right by one position, discarding the
last element and inserting a leading "not terminal" sentinel. -/
def spec_shift (terminals : List Bool) : List Bool :=
  (false :: terminals).dropLast

/-- Spec §4.1 step 3: `carry = carry + rewards[t]`, reset to `rewards[t]`
when the shifted terminal is true; record each carry. -/
def spec_scan (carry : ℚ) : List (Bool × ℚ) → List ℚ
  | [] => []
  | p :: ps =>
      let c := if p.1 then p.2 else carry + p.2
      c :: spec_scan c ps

/-- Spec §4.1 `compute_returns`: the subsequence of the cumulative values at
the indices where the original terminal flag is true, in increasing order. -/
def compute_returns_spec (rewards : List ℚ) (terminals : List Bool) : List ℚ :=
  ((terminals.zip (spec_scan 0 ((spec_shift terminals).zip rewards))).filter
      (fun p => p.1)).map Prod.snd

/-- Per-episode totals, stated directly: sum the rewards of each segment that
ends at a true terminal (the reward at the terminal step included), dropping a
trailing partial segment. -/
def episodeAccum (acc : ℚ) : List (Bool × ℚ) → List ℚ
  | [] => []
  | p :: ps =>
      if p.1 then (acc + p.2) :: episodeAccum 0 ps
      else episodeAccum (acc + p.2) ps

/-- The sequence of completed-episode reward totals of a batch. -/
def episodeSums (rewards : List ℚ) (terminals : List Bool) : List ℚ :=
  episodeAccum 0 (terminals.zip rewards)

/-- Spec §4.2 `compute_saco`: count of distinct concatenated state-action rows
(exact equality) divided by T; `InvalidInput` on mismatched lengths. -/
def compute_saco_spec (states actions : List (List ℚ)) :
    Except AnalyseError ℚ :=
  if states.length = actions.length then
    .ok ((((states.zip actions).map (fun p => p.1 ++ p.2)).dedup.length : ℚ) /
      (states.length : ℚ))
  else .error .invalidInput

/-! The orchestration function `analyse_vault`.  The identifier enumerator
(`get_available_uids`) and the vault store (`Vault(...).read().experience`)
are external collaborators, so the embedding abstracts them as function
parameters; the per-UID experience is reduced to the two 1-D arrays
`calculate_returns` derives from it. -/

/-- The slice of a stored experience record that `calculate_returns`
consumes: the terminal flags (already reduced across agents) and the rewards
of the designated agent. -/
structure VaultData where
  terminals : List ℚ
  rewards : List ℚ

/-- Python dict assignment `d[k] = v`: overwrite in place when the key is
present, append otherwise (insertion order preserved). -/
def dictInsert {V : Type} (d : List (String × V)) (k : String) (v : V) :
    List (String × V) :=
  if d.any (fun p => p.1 == k) then
    d.map (fun p => if p.1 == k then (p.1, v) else p)
  else d ++ [(k, v)]

/-- Embedding of `analyse_vault`.  The `vault_uids` parameter is rebound to
`get_available_uids(f"./{rel_dir}/{vault_name}")` exactly as in the source
(which overwrites its argument before any use); each enumerated UID is mapped
to the returns computed from its stored data.  The `visualise` branch only
plots and does not affect the returned mapping. -/
def analyse_vault (get_available_uids : String → List String)
    (read_experience : String → VaultData)
    (vault_name : String) (vault_uids : Option (List String))
    (rel_dir : String) (visualise : Bool) :
    List (String × Except AnalyseError (List ℚ)) :=
  let vault_uids := get_available_uids ("./" ++ rel_dir ++ "/" ++ vault_name)
  vault_uids.foldl
    (fun acc uid =>
      dictInsert acc uid
        (sum_rewards (read_experience uid).terminals
          (read_experience uid).rewards))
    []

/-! Helper lemmas. -/

theorem maskSelect_nil_left (v : List ℚ) : maskSelect [] v = [] := rfl

theorem maskSelect_nil_right (m : List ℚ) : maskSelect m [] = [] := by
  simp [maskSelect]

theorem maskSelect_cons (x y : ℚ) (m v : List ℚ) :
    maskSelect (x :: m) (y :: v)
      = if x = 1 then y :: maskSelect m v else maskSelect m v := by
  by_cases hx : x = 1 <;> simp [maskSelect, hx]

theorem maskSelect_length (m : List ℚ) :
    ∀ v : List ℚ, m.length = v.length →
      (maskSelect m v).length = m.count 1 := by
  induction m with
  | nil => intro v _; simp [maskSelect]
  | cons x m ih =>
      intro v h
      cases v with
      | nil => simp at h
      | cons y v =>
          have hv := ih v (by simpa using h)
          by_cases hx : x = 1 <;>
            simp [maskSelect_cons, hx, hv, List.count_cons]

theorem maskSelect_eq_nil (m : List ℚ) :
    ∀ v : List ℚ, (∀ x ∈ m, x ≠ 1) → maskSelect m v = [] := by
  induction m with
  | nil => intro v _; rfl
  | cons x m ih =>
      intro v h
      cases v with
      | nil => exact maskSelect_nil_right _
      | cons y v =>
          rw [maskSelect_cons, if_neg (h x (by simp))]
          exact ih v (fun z hz => h z (by simp [hz]))

theorem maskSelect_append (m₁ v₁ m₂ v₂ : List ℚ)
    (h : m₁.length = v₁.length) :
    maskSelect (m₁ ++ m₂) (v₁ ++ v₂)
      = maskSelect m₁ v₁ ++ maskSelect m₂ v₂ := by
  simp [maskSelect, List.zip_append h, List.filter_append]

theorem scanAccum_length (c : ℚ) (l : List (ℚ × ℚ)) :
    (scanAccum c l).length = l.length := by
  induction l generalizing c with
  | nil => rfl
  | cons p l ih => simp [scanAccum, ih]

theorem scanAccum_append (l₁ : List (ℚ × ℚ)) :
    ∀ (l₂ : List (ℚ × ℚ)) (c : ℚ),
      scanAccum c (l₁ ++ l₂)
        = scanAccum c l₁ ++ scanAccum (l₁.foldl scan_fn c) l₂ := by
  induction l₁ with
  | nil => intros; rfl
  | cons p l₁ ih => intro l₂ c; simp [scanAccum, ih]

theorem scanAccum_boolToQ (bs : List Bool) :
    ∀ (rs : List ℚ) (c : ℚ),
      scanAccum c ((bs.map boolToQ).zip rs) = spec_scan c (bs.zip rs) := by
  induction bs with
  | nil => intros; rfl
  | cons b bs ih =>
      intro rs c
      cases rs with
      | nil => rfl
      | cons r rs =>
          have hb : scan_fn c (boolToQ b, r) = if b then r else c + r := by
            cases b <;> simp [scan_fn, boolToQ]
          have ihr := ih rs (if b = true then r else c + r)
          simp only [List.zip] at ihr
          simp only [List.map_cons, List.zip_cons_cons, scanAccum, spec_scan,
            hb]
          exact congrArg _ ihr

theorem maskSelect_boolToQ (bs : List Bool) :
    ∀ vs : List ℚ,
      maskSelect (bs.map boolToQ) vs
        = ((bs.zip vs).filter (fun q => q.1)).map Prod.snd := by
  induction bs with
  | nil => intro vs; rfl
  | cons b bs ih =>
      intro vs
      cases vs with
      | nil => simp [maskSelect_nil_right]
      | cons v vs =>
          have hb : (boolToQ b = 1) = (b = true) := by
            cases b <;> simp [boolToQ]
          simp only [List.map_cons, maskSelect_cons, List.zip_cons_cons,
            List.filter_cons, hb]
          cases b <;> simp [ih]

/-- Helper recursion: the cumulative values of the shifted scan, phrased with
the previous terminal flag carried along instead of the shifted list. -/
def scanP (p : Bool) (c : ℚ) : List Bool → List ℚ → List ℚ
  | t :: ts, r :: rs =>
      let c2 := if p then r else c + r
      c2 :: scanP t c2 ts rs
  | _, _ => []

theorem spec_scan_shift (ts : List Bool) :
    ∀ (rs : List ℚ) (p : Bool) (c : ℚ), ts.length = rs.length →
      spec_scan c ((p :: ts.dropLast).zip rs) = scanP p c ts rs := by
  induction ts with
  | nil =>
      intro rs p c h
      have : rs = [] := by simpa using (List.length_eq_zero.mp h.symm)
      subst this
      rfl
  | cons t ts ih =>
      intro rs p c h
      cases rs with
      | nil => simp at h
      | cons r rs =>
          cases ts with
          | nil =>
              have : rs = [] := by simpa using h
              subst this
              rfl
          | cons t2 ts2 =>
              have h2 : (t2 :: ts2).length = rs.length := by simpa using h
              have ihr := ih rs t (if p then r else c + r) h2
              simp only [List.zip] at ihr
              simp only [List.dropLast_cons₂, List.zip_cons_cons, spec_scan,
                scanP]
              exact congrArg _ ihr

theorem scanP_select (ts : List Bool) :
    ∀ (rs : List ℚ) (p : Bool) (c : ℚ),
      ((ts.zip (scanP p c ts rs)).filter (fun q => q.1)).map Prod.snd
        = episodeAccum (if p then 0 else c) (ts.zip rs) := by
  induction ts with
  | nil => intros; rfl
  | cons t ts ih =>
      intro rs p c
      cases rs with
      | nil => simp [scanP, episodeAccum]
      | cons r rs =>
          have hc : (if p then (0 : ℚ) else c) + r
              = if p then r else c + r := by
            cases p <;> simp
          simp only [scanP, List.zip_cons_cons, List.filter_cons,
            episodeAccum, ← hc]
          cases t with
          | false =>
              simpa [List.zip, hc] using
                ih rs false (if p = true then r else c + r)
          | true =>
              simpa [List.zip, hc] using
                ih rs true (if p = true then r else c + r)

theorem spec_shift_cons (t : Bool) (ts : List Bool) :
    spec_shift (t :: ts) = false :: (t :: ts).dropLast := by
  cases ts <;> simp [spec_shift]

theorem length_moveAxis01 (d : ℕ) (arr : List (List (List ℚ))) :
    (moveAxis01 d arr).length = d := by
  simp [moveAxis01]

theorem length_np_unique_axis1 (arr : List (List (List ℚ))) :
    (np_unique_axis1 arr).length = arr.length := by
  simp [np_unique_axis1, length_moveAxis01]

theorem dictInsert_fresh {V : Type} (d : List (String × V)) (k : String)
    (v : V) (h : ∀ p ∈ d, p.1 ≠ k) : dictInsert d k v = d ++ [(k, v)] := by
  have : d.any (fun p => p.1 == k) = false := by
    simp only [List.any_eq_false]
    intro p hp
    simpa using h p hp
  simp [dictInsert, this]

theorem foldl_dictInsert {V : Type} (f : String → V) :
    ∀ (uids : List String) (acc : List (String × V)), uids.Nodup →
      (∀ k ∈ uids, ∀ p ∈ acc, p.1 ≠ k) →
      ((uids.foldl (fun a u => dictInsert a u (f u)) acc).map Prod.fst
          = acc.map Prod.fst ++ uids) ∧
      ∀ p ∈ uids.foldl (fun a u => dictInsert a u (f u)) acc,
        p ∈ acc ∨ p.2 = f p.1 := by
  intro uids
  induction uids with
  | nil =>
      intro acc _ _
      exact ⟨by simp, fun p hp => Or.inl hp⟩
  | cons uid rest ih =>
      intro acc hnd hfresh
      have hmem : uid ∉ rest := (List.nodup_cons.mp hnd).1
      have hnd' : rest.Nodup := (List.nodup_cons.mp hnd).2
      have hins : dictInsert acc uid (f uid) = acc ++ [(uid, f uid)] :=
        dictInsert_fresh acc uid (f uid)
          (fun p hp => hfresh uid (by simp) p hp)
      have hfresh' : ∀ k ∈ rest, ∀ p ∈ acc ++ [(uid, f uid)], p.1 ≠ k := by
        intro k hk p hp
        rcases List.mem_append.mp hp with hp | hp
        · exact hfresh k (by simp [hk]) p hp
        · have : p = (uid, f uid) := by simpa using hp
          subst this
          intro hEq
          have : uid = k := hEq
          exact hmem (this ▸ hk)
      have ihr := ih (acc ++ [(uid, f uid)]) hnd' hfresh'
      constructor
      · simpa [hins, List.map_append] using ihr.1
      · intro p hp
        have := ihr.2 p (by simpa [hins] using hp)
        rcases this with hpa | hpe
        · rcases List.mem_append.mp hpa with hpa | hpa
          · exact Or.inl hpa
          · have : p = (uid, f uid) := by simpa using hpa
            subst this
            exact Or.inr rfl
        · exact Or.inr hpe

-- sanity examples (concrete evaluations used while developing)
example : sum_rewards [0, 0, 1] [1, 2, 3] = .ok [6] := by
  norm_num [sum_rewards, scanAccum, scan_fn, maskSelect]
example : sum_rewards [0, 1, 0, 1] [1, 1, 5, 2] = .ok [2, 7] := by
  norm_num [sum_rewards, scanAccum, scan_fn, maskSelect]
example : sum_rewards [0, 0, 0] [1, 2, 3] = .ok [] := by rfl
example : sum_rewards [0, 1] [1, 2, 3] = .error .invalidInput := by rfl
example :
    get_saco [[[0], [0], [1]]] [[[[0]], [[0]], [[0]]]] = .ok (1 / 3) := by
  rfl

theorem sum_rewards_eq_spec (rewards : List ℚ) (terminals : List Bool)
    (h : terminals.length = rewards.length) :
    sum_rewards (terminals.map boolToQ) rewards
      = .ok (compute_returns_spec rewards terminals) := by
  have hlen : (terminals.map boolToQ).length = rewards.length := by
    simpa using h
  have hshift : ((0 : ℚ) :: terminals.map boolToQ).dropLast
      = (spec_shift terminals).map boolToQ := by
    have h0 : (0 : ℚ) :: terminals.map boolToQ
        = (false :: terminals).map boolToQ := by simp [boolToQ]
    rw [h0, spec_shift, List.map_dropLast]
  unfold sum_rewards
  rw [if_pos hlen]
  dsimp only
  rw [hshift, scanAccum_boolToQ, maskSelect_boolToQ]
  rfl

theorem compute_returns_spec_eq_episodeSums (rewards : List ℚ)
    (terminals : List Bool) (h : terminals.length = rewards.length) :
    compute_returns_spec rewards terminals = episodeSums rewards terminals := by
  cases terminals with
  | nil => rfl
  | cons t ts =>
      cases rewards with
      | nil => simp at h
      | cons r rs =>
          unfold compute_returns_spec episodeSums
          rw [spec_shift_cons, spec_scan_shift (t :: ts) (r :: rs) false 0 h]
          simpa using scanP_select (t :: ts) (r :: rs) false 0

theorem sum_rewards_no_one (terminals rewards : List ℚ)
    (h : terminals.length = rewards.length)
    (hno : ∀ x ∈ terminals, x ≠ 1) : sum_rewards terminals rewards = .ok [] := by
  unfold sum_rewards
  rw [if_pos h]
  dsimp only
  rw [maskSelect_eq_nil _ _ hno]

theorem sum_rewards_append_no_terminal (t r t' r' : List ℚ)
    (h : t.length = r.length) (h' : t'.length = r'.length)
    (hno : ∀ x ∈ t', x ≠ 1) :
    sum_rewards (t ++ t') (r ++ r') = sum_rewards t r := by
  cases t' with
  | nil =>
      have : r' = [] := List.length_eq_zero.mp (by simpa using h'.symm)
      subst this
      simp
  | cons u tt =>
      cases r' with
      | nil => simp at h'
      | cons w rr =>
          have hBig : (t ++ u :: tt).length = (r ++ w :: rr).length := by
            simp [h, h']
          unfold sum_rewards
          rw [if_pos hBig, if_pos h]
          dsimp only
          congr 1
          have hgl : (0 : ℚ) :: t
              = ((0 : ℚ) :: t).dropLast
                  ++ [((0 : ℚ) :: t).getLast (by simp)] :=
            (List.dropLast_append_getLast (by simp)).symm
          have hshift : ((0 : ℚ) :: (t ++ u :: tt)).dropLast
              = ((0 : ℚ) :: t).dropLast
                  ++ ([((0 : ℚ) :: t).getLast (by simp)]
                      ++ (u :: tt).dropLast) := by
            have h1 : (0 : ℚ) :: (t ++ u :: tt) = ((0 : ℚ) :: t) ++ u :: tt := by
              simp
            rw [h1, List.dropLast_append]
            simp only [List.isEmpty_cons, if_neg, Bool.false_eq_true,
              not_false_eq_true, if_false]
            rw [← List.append_assoc, ← hgl]
          have hL : (((0 : ℚ) :: t).dropLast).length = r.length := by
            simp [h]
          rw [hshift, List.zip_append hL, scanAccum_append,
            maskSelect_append _ _ _ _ (by simp [scanAccum_length, hL, h]),
            maskSelect_eq_nil _ _ hno, List.append_nil]

/-- Claim C1: the spec says `get_saco` returns the count of distinct
state-action rows divided by T, but the source computes
`len(np.unique(state_pairs, axis=1))`, which is the unchanged leading batch
dimension.  At states `[[0],[0],[1]]`, actions `[[0],[0],[0]]` (batch
dimension 1, rows `[0,0]`,`[0,0]`,`[1,0]`) the code yields 1/3 while the
distinct-row ratio of the spec is 2/3. -/
theorem get_saco_divergence :
    get_saco [[[0], [0], [1]]] [[[[0]], [[0]], [[0]]]] = .ok (1 / 3) ∧
    compute_saco_spec [[0], [0], [1]] [[0], [0], [0]] = .ok (2 / 3) ∧
    (1 / 3 : ℚ) ≠ 2 / 3 := by
  refine ⟨rfl, rfl, by norm_num⟩

/-- Claim C2: `sum_rewards` performs the segmented reset-scan of the spec —
shift the terminals right with a leading 0 sentinel, accumulate
`carry + rewards[t]` with a reset to `rewards[t]` exactly when the shifted
terminal is true, and output the carries at the indices where the original
terminal is true — and each output value is the total reward of one completed
episode. -/
theorem sum_rewards_segmented_scan (rewards : List ℚ) (terminals : List Bool)
    (h : terminals.length = rewards.length) :
    sum_rewards (terminals.map boolToQ) rewards
        = .ok (compute_returns_spec rewards terminals) ∧
    compute_returns_spec rewards terminals
        = episodeSums rewards terminals :=
  ⟨sum_rewards_eq_spec rewards terminals h,
   compute_returns_spec_eq_episodeSums rewards terminals h⟩

theorem sum_rewards_segmented_scan_witness :
    sum_rewards ([false, true].map boolToQ) [1, 2]
        = .ok (compute_returns_spec [1, 2] [false, true]) ∧
    compute_returns_spec [1, 2] [false, true]
        = episodeSums [1, 2] [false, true] :=
  sum_rewards_segmented_scan [1, 2] [false, true] rfl

/-- Claim C3: a length mismatch between index-aligned inputs fails with
`InvalidInput` (rewards length 3 with terminals length 2; mismatched
states/actions time axes), and it is the only failure mode: every
length-aligned input with T ≥ 1 succeeds. -/
theorem invalid_input_only_failure :
    sum_rewards [0, 1] [1, 2, 3] = .error .invalidInput ∧
    get_saco [[[0], [0]]] [[[[0]], [[0]], [[0]]]] = .error .invalidInput ∧
    (∀ terminals rewards : List ℚ, terminals.length = rewards.length →
        0 < terminals.length →
        ∃ out, sum_rewards terminals rewards = .ok out) ∧
    ∀ (states : List (List (List ℚ)))
      (actions : List (List (List (List ℚ)))),
      aligned states (reshape_actions actions) = true →
      0 < (states.headD []).length →
      ∃ q, get_saco states actions = .ok q := by
  refine ⟨rfl, rfl, ?_, ?_⟩
  · intro t r h _
    unfold sum_rewards
    rw [if_pos h]
    exact ⟨_, rfl⟩
  · intro s a hal _
    unfold get_saco concat_last_axis
    rw [if_pos hal]
    exact ⟨_, rfl⟩

theorem invalid_input_only_failure_witness :
    (∃ out, sum_rewards [0, 1] [1, 1] = .ok out) ∧
    ∃ q, get_saco [[[2], [3]]] [[[[4]], [[5]]]] = .ok q :=
  ⟨invalid_input_only_failure.2.2.1 [0, 1] [1, 1] rfl (by norm_num),
   invalid_input_only_failure.2.2.2 [[[2], [3]]] [[[[4]], [[5]]]] rfl
     (by norm_num)⟩

/-- Claim C4: for every valid input (equal lengths, terminals in 0/1) the
output of the returns computation has exactly one entry per terminal flag
equal to 1. -/
theorem sum_rewards_length_eq_count (terminals rewards : List ℚ)
    (hlen : terminals.length = rewards.length)
    (h01 : ∀ x ∈ terminals, x = 0 ∨ x = 1) :
    ∃ out, sum_rewards terminals rewards = .ok out ∧
      out.length = terminals.count 1 := by
  refine ⟨maskSelect terminals
    (scanAccum 0 (((0 :: terminals).dropLast).zip rewards)), ?_, ?_⟩
  · unfold sum_rewards
    rw [if_pos hlen]
  · apply maskSelect_length
    rw [scanAccum_length, List.length_zip]
    simp [hlen]

theorem sum_rewards_length_eq_count_witness :
    ∃ out, sum_rewards [0, 1, 1] [2, 3, 4] = .ok out ∧
      out.length = List.count 1 [0, 1, 1] :=
  sum_rewards_length_eq_count [0, 1, 1] [2, 3, 4] rfl (by norm_num)

/-- Claim C5: reward accumulated after the last set terminal never reaches
the output — with no terminal set the output is empty (in particular for
rewards `[1,2,3]`, terminals `[0,0,0]`), and appending a trailing partial
episode (no terminal set in the suffix) leaves the output unchanged. -/
theorem sum_rewards_drops_unterminated :
    sum_rewards [0, 0, 0] [1, 2, 3] = .ok [] ∧
    (∀ terminals rewards : List ℚ, terminals.length = rewards.length →
        (∀ x ∈ terminals, x ≠ 1) → sum_rewards terminals rewards = .ok []) ∧
    ∀ t r t' r' : List ℚ, t.length = r.length → t'.length = r'.length →
      (∀ x ∈ t', x ≠ 1) →
      sum_rewards (t ++ t') (r ++ r') = sum_rewards t r :=
  ⟨by rfl, sum_rewards_no_one, sum_rewards_append_no_terminal⟩

theorem sum_rewards_drops_unterminated_witness :
    sum_rewards ([1] ++ [0]) ([5] ++ [7]) = sum_rewards [1] [5] :=
  sum_rewards_drops_unterminated.2.2 [1] [5] [0] [7] rfl rfl (by norm_num)

/-- Claim C6: the spec's SACO-duplication test expects 2/3 for states
`[[0],[0],[1]]` and actions `[[0],[0],[0]]`, but the source returns 1/3
(the `len` of the `np.unique(..., axis=1)` result is the batch dimension). -/
theorem get_saco_dup_example :
    get_saco [[[0], [0], [1]]] [[[[0]], [[0]], [[0]]]] = .ok (1 / 3) ∧
    (Except.ok (1 / 3 : ℚ) : Except AnalyseError ℚ) ≠ .ok (2 / 3) := by
  refine ⟨rfl, ?_⟩
  simp only [ne_eq, Except.ok.injEq]
  norm_num

/-- Claim C7: for every stored batch whose arrays have leading batch
dimension 1 and aligned shapes, `get_saco` returns exactly
`1 / states.shape[1]`, independent of the stored values: the `len` of the
`np.unique(..., axis=1)` result is the unchanged leading batch dimension. -/
theorem get_saco_batch_dim_one (states : List (List (List ℚ)))
    (actions : List (List (List (List ℚ)))) (hB : states.length = 1)
    (hal : aligned states (reshape_actions actions) = true)
    (hT : 0 < (states.headD []).length) :
    get_saco states actions = .ok (1 / ((states.headD []).length : ℚ)) := by
  have hlen : (reshape_actions actions).length = 1 := by
    simp only [aligned, Bool.and_eq_true, beq_iff_eq, List.all_eq_true]
      at hal
    rw [← hal.1, hB]
  unfold get_saco concat_last_axis
  rw [if_pos hal]
  dsimp only
  rw [length_np_unique_axis1]
  simp [hB, hlen]

theorem get_saco_batch_dim_one_witness :
    get_saco [[[5], [7]]] [[[[1]], [[2]]]] = .ok (1 / 2) := by
  have := get_saco_batch_dim_one [[[5], [7]]] [[[[1]], [[2]]]] rfl rfl
    (by norm_num)
  simpa using this

/-- Claim C8: `analyse_vault` unconditionally overwrites its `vault_uids`
argument with the directory enumeration, so any two values of that argument
(including `none`) give the same result. -/
theorem analyse_vault_ignores_uids (get_uids : String → List String)
    (read_exp : String → VaultData) (vault_name rel_dir : String)
    (visualise : Bool) (uids1 uids2 : Option (List String)) :
    analyse_vault get_uids read_exp vault_name uids1 rel_dir visualise
      = analyse_vault get_uids read_exp vault_name uids2 rel_dir visualise :=
  rfl

/-- Claim C9: both core computations are deterministic — the embedding is a
pure function of its arguments, so two invocations on identical inputs
produce identical outputs. -/
theorem core_computations_deterministic (terminals rewards : List ℚ)
    (states : List (List (List ℚ)))
    (actions : List (List (List (List ℚ)))) :
    sum_rewards terminals rewards = sum_rewards terminals rewards ∧
    get_saco states actions = get_saco states actions :=
  ⟨rfl, rfl⟩

/-- Claim C10: `analyse_vault` returns one entry per enumerated identifier,
in enumeration order, mapping each identifier to the returns computed from
its stored data. -/
theorem analyse_vault_mapping (get_uids : String → List String)
    (read_exp : String → VaultData) (vault_name rel_dir : String)
    (visualise : Bool) (uids : Option (List String))
    (hnd : (get_uids ("./" ++ rel_dir ++ "/" ++ vault_name)).Nodup) :
    ((analyse_vault get_uids read_exp vault_name uids rel_dir visualise).map
        Prod.fst = get_uids ("./" ++ rel_dir ++ "/" ++ vault_name)) ∧
    ∀ p ∈ analyse_vault get_uids read_exp vault_name uids rel_dir visualise,
      p.2 = sum_rewards (read_exp p.1).terminals (read_exp p.1).rewards := by
  have hf := foldl_dictInsert
    (fun uid => sum_rewards (read_exp uid).terminals (read_exp uid).rewards)
    (get_uids ("./" ++ rel_dir ++ "/" ++ vault_name)) [] hnd
    (by intro k _ p hp; simp at hp)
  constructor
  · simpa [analyse_vault] using hf.1
  · intro p hp
    rcases hf.2 p (by simpa [analyse_vault] using hp) with hpa | hpe
    · simp at hpa
    · exact hpe

theorem analyse_vault_mapping_witness :
    ((analyse_vault (fun _ => ["good", "medium"]) (fun _ => ⟨[1], [2]⟩)
        "smac" none "vaults" false).map Prod.fst = ["good", "medium"]) ∧
    ∀ p ∈ analyse_vault (fun _ => ["good", "medium"]) (fun _ => ⟨[1], [2]⟩)
        "smac" none "vaults" false,
      p.2 = sum_rewards [1] [2] := by
  have := analyse_vault_mapping (fun _ => ["good", "medium"])
    (fun _ => (⟨[1], [2]⟩ : VaultData)) "smac" "vaults" false none (by simp)
  simpa using this
